import Mathlib

/-!
Verification of the emulated-field bit operations and the BN254 pairing glue
of the gnark fork under study.  Circuit variables are modelled at witness
level: a native-field variable is a natural number (or an integer where the
source subtracts), which is sound on the value ranges enforced by the
source's own width checks.  Emulated elements are lists of limb values
together with the field parameters `w` (bits per limb) and the modulus.
-/

namespace Emulated

/-- Value of a limb vector in base `2^w`, little-endian (mirrors the meaning
of `Element.Limbs` in the source). -/
def elemValue (w : ℕ) : List ℕ → ℕ
  | [] => 0
  | l :: ls => l + 2 ^ w * elemValue w ls

/-- The canonical `n`-limb base-`2^w` decomposition of `x` (the limb
representation produced by binding a constant, and by strict reduction). -/
def natDigits (w : ℕ) : ℕ → ℕ → List ℕ
  | 0, _ => []
  | n + 1, x => x % 2 ^ w :: natDigits w n (x / 2 ^ w)

/-! ### `Field.ToBits`

Witness-level model of the loop in `Field.ToBits`: each limb (plus the carry
threaded from the previous limb) is decomposed by `bits.ToBinary` into
`bitsPerLimb + overflow` bits; the low `bitsPerLimb` bits go to the output and
the excess bits are recombined (`bits.FromBinary`) into the next carry.  After
the loop the excess bits of the last limb are appended.  `bits.ToBinary` /
`bits.FromBinary` themselves are outside the excerpt and modelled from their
contract: `d` 0-1-constrained digits whose weighted sum is the input (which
the emitted constraints force below `2 ^ d`), and the weighted sum of the
digits. -/

def toBitsLoop (w ov : ℕ) : List ℕ → ℕ → List ℕ × List ℕ
  | [], _ => ([], [])
  | l :: rest, carry =>
    let lb := natDigits 1 (w + ov) (l + carry)
    let carry' := if 0 < ov then elemValue 1 (lb.drop w) else carry
    let r := toBitsLoop w ov rest carry'
    (lb.take w ++ r.1, if rest.isEmpty then lb else r.2)

/-- `Field.ToBits` on a witness-bound element with limb values `limbs` and
overflow `ov` (the constant path of the source returns the bits of the
constant directly and is handled where it is used). -/
def ToBits (w ov : ℕ) (limbs : List ℕ) : List ℕ :=
  let r := toBitsLoop w ov limbs 0
  r.1 ++ ((r.2.drop w).take ov)

/-! ### `Field.FromBits`

`FromBits` packs `bitsPerLimb`-sized groups of the input bits into limbs
(`bits.FromBinary` on each group), with the last limb taking whatever bits
remain.  `chunkAux` is the same grouping written with a structural fuel
argument (`bs.length` steps always suffice when `0 < w`). -/

def chunkAux (w : ℕ) : ℕ → List ℕ → List ℕ
  | 0, bs => [elemValue 1 bs]
  | fuel + 1, bs =>
    if bs.length ≤ w then [elemValue 1 bs]
    else elemValue 1 (bs.take w) :: chunkAux w fuel (bs.drop w)

/-- Limbs of the element returned by `Field.FromBits` (the returned element
has overflow 0). -/
def FromBits (w : ℕ) (bs : List ℕ) : List ℕ := chunkAux w bs.length bs

/-! ### `Field.ToBitsCanonical`

The bit length and trailing-zero count of the modulus (`big.Int.BitLen` /
`big.Int.TrailingZeroBits`), and the truncating canonical decomposition. -/

def tzAux : ℕ → ℕ → ℕ
  | 0, _ => 0
  | fuel + 1, n =>
    if n = 0 then 0
    else if n % 2 = 0 then tzAux fuel (n / 2) + 1
    else 0

/-- Number of consecutive least-significant zero bits (model of
`big.Int.TrailingZeroBits`; `n` steps of fuel always suffice). -/
def trailingZeroBits (n : ℕ) : ℕ := tzAux n n

def blAux : ℕ → ℕ → ℕ
  | 0, _ => 0
  | fuel + 1, n => if n = 0 then 0 else blAux fuel (n / 2) + 1

/-- Length of the binary representation (model of `big.Int.BitLen`; `n` steps
of fuel always suffice). -/
def bitLen (n : ℕ) : ℕ := blAux n n

/-- The number of bits kept by `ToBitsCanonical`: the modulus bit length,
minus one when the modulus is an exact power of two (its top bit being the
only set bit, the code drops the always-zero bit below it). -/
def nbBitsCanonical (p : ℕ) : ℕ :=
  if trailingZeroBits p = bitLen p - 1 then bitLen p - 1 else bitLen p

/-- Modelled from the spec: `Field.ReduceStrict` (its code is not part of the
excerpt) returns an element with overflow 0 whose value is proven smaller
than the modulus and congruent to the input, i.e. the canonical limbs of the
value mod `p`. -/
def ReduceStrict (w n p x : ℕ) : List ℕ := natDigits w n (x % p)

/-- `Field.ToBitsCanonical` applied to a bound element of value `x`
(binding an integer produces the element with its canonical limbs; the
binding code is likewise outside the excerpt): strictly reduce, then
decompose to bits and keep the low `nbBitsCanonical` bits. -/
def ToBitsCanonical (w n p x : ℕ) : List ℕ :=
  (ToBits w 0 (ReduceStrict w n p x)).take (nbBitsCanonical p)

/-! ### `Field.AssertIsLessOrEqual`

The source panics when an operand carries overflow, decomposes both operands
to bits, zero-pads the shorter side at the most significant end (the `ff`
closure) and runs a big-endian loop with a running still-tied indicator `p`,
asserting `(1 - t - eBit) * eBit = 0` at every position.  Native arithmetic
is modelled over ℤ (exact on these {0,1}-valued wires). -/

/-- Zero-padding at the most significant end (the `ff` closure). -/
def padTo (k : ℕ) (bs : List ℕ) : List ℕ :=
  bs ++ List.replicate (k - bs.length) 0

/-- The comparison loop over the (eBit, aBit) pairs listed from most to least
significant; `p` is the running still-tied indicator `p[i+1]`.  Returns
whether every emitted `AssertIsEqual(ll, 0)` holds. -/
def leFold : List (ℕ × ℕ) → ℤ → Bool
  | [], _ => true
  | (eb, ab) :: rest, p =>
    let v : ℤ := p * eb
    let pn : ℤ := if ab = 0 then p else v
    let t : ℤ := if ab = 0 then p else 0
    let l : ℤ := 1 - t - eb
    decide (l * eb = 0) && leFold rest pn

/-- The constraints emitted on the two bit decompositions. -/
def assertIsLessOrEqualBits (ebits abits : List ℕ) : Bool :=
  let n := max ebits.length abits.length
  leFold ((padTo n ebits).zip (padTo n abits)).reverse 1

/-- `Field.AssertIsLessOrEqual`: `none` is the build-time panic on nonzero
overflow; otherwise whether the emitted constraints hold on the witness
values. -/
def AssertIsLessOrEqual (w eOv aOv : ℕ) (eLimbs aLimbs : List ℕ) :
    Option Bool :=
  if 0 < eOv + aOv then none
  else some (assertIsLessOrEqualBits (ToBits w eOv eLimbs) (ToBits w aOv aLimbs))

/-! ### `Field.IsZero`

The element is loosely reduced first (code outside the excerpt; the spec
guarantees the reduced value is congruent to the input and either
`x mod p` or `x mod p + p`); then either every limb is zero (tested by a
limb sum when summing cannot overflow the native field, limb-wise
otherwise) or the limbs equal the modulus limbs (always limb-wise).  Native
wires are modelled over ℤ, exact on these ranges. -/

/-- `api.IsZero` on a native wire. -/
def isZeroNative (x : ℤ) : ℤ := if x = 0 then 1 else 0

/-- `api.Or` on boolean wires. -/
def orNative (a b : ℤ) : ℤ := a + b - a * b

/-- First approach: product of per-limb `IsZero`. -/
def isZeroLimbwise (limbs : List ℕ) : ℤ :=
  (limbs.map (fun l => isZeroNative (Int.ofNat l))).prod

/-- Second approach: `IsZero` of the sum of all limbs. -/
def isZeroSum (limbs : List ℕ) : ℤ := isZeroNative (Int.ofNat limbs.sum)

/-- The modulus branch: `IsZero(Sub(p.Limbs[i], ca.Limbs[i]))` for every
limb, multiplied together. -/
def eqModulusLimbwise (pLimbs caLimbs : List ℕ) : ℤ :=
  ((pLimbs.zip caLimbs).map
    (fun pc => isZeroNative (Int.ofNat pc.1 - Int.ofNat pc.2))).prod

/-- `Field.IsZero` past the constant fast path, on the loosely reduced limbs
`caLimbs`: the all-limbs-zero check — by the sum shortcut unless
`len(limbs) - 1` exceeds the native overflow budget — OR-ed with the
limb-wise comparison against the modulus limbs. -/
def IsZero (maxOv : ℕ) (caLimbs pLimbs : List ℕ) : ℤ :=
  let res0 :=
    if caLimbs.length - 1 > maxOv then isZeroLimbwise caLimbs
    else isZeroSum caLimbs
  orNative res0 (eqModulusLimbwise pLimbs caLimbs)

/-! ### `Field.AssertIsEqual` -/

/-- An operand of `AssertIsEqual`: either a build-time constant value or a
witness-bound element of the given value. -/
inductive EElement
  | const (v : ℕ)
  | wit (v : ℕ)
deriving DecidableEq

def EElement.value : EElement → ℕ
  | const v => v
  | wit v => v

/-- Whether `EElement` is a build-time constant (the `constantValue`
test). -/
def EElement.isConst : EElement → Bool
  | const _ => true
  | wit _ => false

/-- Whether `Field.AssertIsEqual` panics at build time: only when both
operands are constants and their values differ after reduction mod the
modulus (`ba.Mod`, `bb.Mod`, `ba.Cmp(bb) != 0`). -/
def assertIsEqualPanics (p : ℕ) : EElement → EElement → Bool
  | EElement.const a, EElement.const b => decide (¬ a % p = b % p)
  | _, _ => false

/-- Whether the constraints emitted by `Field.AssertIsEqual` hold on the
witness: two constants emit none; otherwise `checkZero(Sub(b, a))` is
emitted (spec-modelled: `Sub`/`checkZero` are outside the excerpt;
satisfied exactly when `b - a ≡ 0` modulo the modulus). -/
def assertIsEqualHolds (p : ℕ) : EElement → EElement → Bool
  | EElement.const _, EElement.const _ => true
  | a, b => decide (a.value % p = b.value % p)

end Emulated

namespace Pairing

/-! ### `Pairing.MillerLoop` input validation -/

/-- The input-validation outcome of `millerLoopLines` on `nP` G1 points and
`nLines` precomputed line slices: the length check precedes all constraint
emission, and past it the function always returns a nil error. -/
def millerLoopLinesErr (nP nLines : ℕ) : Option String :=
  if nP = 0 ∨ nP ≠ nLines then some "invalid inputs sizes" else none

/-- The input-validation outcome of `MillerLoop` on `nP` G1 points and `nQ`
G2 points: the length check comes first; past it one line slice per `Q` is
collected and `millerLoopLines` is called. -/
def MillerLoopErr (nP nQ : ℕ) : Option String :=
  if nP = 0 ∨ nP ≠ nQ then some "invalid inputs sizes"
  else millerLoopLinesErr nP nQ

/-! ### The 2-NAF loop counter -/

/-- The constant table `loopCounter` (66 digits, little-endian). -/
def loopCounter : List ℤ :=
  [0, 0, 0, 1, 0, 1, 0, -1, 0, 0, -1,
   0, 0, 0, 1, 0, 0, -1, 0, -1, 0, 0,
   0, 1, 0, -1, 0, 0, 0, 0, -1, 0, 0,
   1, 0, -1, 0, 0, 1, 0, 0, 0, 0, 0,
   -1, 0, 0, -1, 0, 1, 0, -1, 0, 0, 0,
   -1, 0, -1, 0, 0, 0, 1, 0, -1, 0, 1]

/-- Value of a signed binary expansion: `Σ ds[i] * 2^i`. -/
def signedBinaryValue : List ℤ → ℤ
  | [] => 0
  | d :: ds => d + 2 * signedBinaryValue ds

/-! ### Final exponentiation

The tower shapes (`E2`, `E6`, `E12` with the source's field names) are from
src; the extension-field arithmetic of `fields_bn254` is outside the
excerpt, so those operations are spec-modelled as abstract deterministic
functions, with only `One`, `IsZero` (equality with the all-zero element)
and `Select` (boolean-gated choice, constant circuit shape) given their
fixed constraint semantics. -/

structure E2 (F : Type) where
  A0 : F
  A1 : F
deriving DecidableEq

structure E6 (F : Type) where
  B0 : E2 F
  B1 : E2 F
  B2 : E2 F
deriving DecidableEq

structure E12 (F : Type) where
  C0 : E6 F
  C1 : E6 F
deriving DecidableEq

/-- Modelled from the spec: the `Ext6`/torus operations used by
`finalExponentiation` (`DivUnchecked`, `MulTorus`, `SquareTorus`,
`InverseTorus`, `ExptTorus`, the torus Frobenius maps and
`DecompressTorus`), whose code is not part of the excerpt. -/
structure GTOps (F : Type) where
  zeroF : F
  oneF : F
  add6 : E6 F → E6 F → E6 F
  neg6 : E6 F → E6 F
  divUnchecked6 : E6 F → E6 F → E6 F
  mulTorus : E6 F → E6 F → E6 F
  squareTorus : E6 F → E6 F
  inverseTorus : E6 F → E6 F
  exptTorus : E6 F → E6 F
  frobeniusTorus : E6 F → E6 F
  frobeniusSquareTorus : E6 F → E6 F
  frobeniusCubeTorus : E6 F → E6 F
  decompressTorus : E6 F → E12 F

def zero2 {F : Type} (ops : GTOps F) : E2 F := ⟨ops.zeroF, ops.zeroF⟩

def zero6 {F : Type} (ops : GTOps F) : E6 F := ⟨zero2 ops, zero2 ops, zero2 ops⟩

/-- `Ext6.One`. -/
def one6 {F : Type} (ops : GTOps F) : E6 F :=
  ⟨⟨ops.oneF, ops.zeroF⟩, zero2 ops, zero2 ops⟩

/-- `Ext12.One`. -/
def one12 {F : Type} (ops : GTOps F) : E12 F := ⟨one6 ops, zero6 ops⟩

/-- The torus pipeline of `finalExponentiation`: the easy part folded into
the compression (`c = -C0/C1`, `c = FrobeniusSquareTorus(c) * c`) followed
by the fixed hard-part chain, returning the final `t0` and `t2` whose torus
product is decompressed.  The `let` shadowing mirrors the source's variable
reassignments. -/
def finalExpPipeline {F : Type} (ops : GTOps F) (e : E12 F) : E6 F × E6 F :=
  let c := ops.neg6 (ops.divUnchecked6 e.C0 e.C1)
  let c := ops.mulTorus (ops.frobeniusSquareTorus c) c
  let t0 := ops.squareTorus (ops.inverseTorus (ops.exptTorus c))
  let t1 := ops.mulTorus t0 (ops.squareTorus t0)
  let t2 := ops.inverseTorus (ops.exptTorus t1)
  let t3 := ops.inverseTorus t1
  let t1 := ops.mulTorus t2 t3
  let t3 := ops.squareTorus t2
  let t4 := ops.exptTorus t3
  let t4 := ops.mulTorus t1 t4
  let t3 := ops.mulTorus t0 t4
  let t0 := ops.mulTorus t2 t4
  let t0 := ops.mulTorus c t0
  let t2 := ops.frobeniusTorus t3
  let t0 := ops.mulTorus t2 t0
  let t2 := ops.frobeniusSquareTorus t4
  let t0 := ops.mulTorus t2 t0
  let t2 := ops.mulTorus (ops.inverseTorus c) t3
  let t2 := ops.frobeniusCubeTorus t2
  (t0, t2)

/-- `Pairing.finalExponentiation`.  The boolean is the source's second
parameter: `true` (the variant with no degenerate inputs) skips both
selectors; `false` (the safe variant, used by `FinalExponentiation` and by
`Pair` with more than one input pair) substitutes algebraic dummies through
`Select` gated on the two selector bits. -/
def finalExponentiation {F : Type} [DecidableEq F] (ops : GTOps F)
    (e : E12 F) (noDegenerate : Bool) : E12 F :=
  let dummy := one6 ops
  let selector1 : Bool :=
    if noDegenerate then false else decide (e.C1 = zero6 ops)
  let e1 : E12 F :=
    if noDegenerate then e
    else { e with C1 := { e.C1 with B0 := { e.C1.B0 with
      A0 := if selector1 then ops.oneF else e.C1.B0.A0 } } }
  let r := finalExpPipeline ops e1
  if noDegenerate then ops.decompressTorus (ops.mulTorus r.2 r.1)
  else
    let selector2 : Bool := decide (ops.add6 r.1 r.2 = zero6 ops)
    let t0 := if selector2 then dummy else r.1
    let selector : Bool := !selector1 && !selector2
    if selector then ops.decompressTorus (ops.mulTorus r.2 t0) else one12 ops

/-- The caller's element after `finalExponentiation` returns: the safe path
stores `Select(selector1, 1, e.C1.B0.A0)` back into the caller's
`e.C1.B0.A0` through the shared pointer; the other variant performs no such
write. -/
def finalExpInputAfter {F : Type} [DecidableEq F] (ops : GTOps F)
    (e : E12 F) (noDegenerate : Bool) : E12 F :=
  if noDegenerate then e
  else { e with C1 := { e.C1 with B0 := { e.C1.B0 with
    A0 := if decide (e.C1 = zero6 ops) then ops.oneF else e.C1.B0.A0 } } }

/-- A concrete instantiation of the abstract tower operations over ℤ, used
to exhibit theorems at computable inputs. -/
def gtOpsZ : GTOps ℤ where
  zeroF := 0
  oneF := 1
  add6 := fun x _ => x
  neg6 := fun x => x
  divUnchecked6 := fun x _ => x
  mulTorus := fun x _ => x
  squareTorus := fun x => x
  inverseTorus := fun x => x
  exptTorus := fun x => x
  frobeniusTorus := fun x => x
  frobeniusSquareTorus := fun x => x
  frobeniusCubeTorus := fun x => x
  decompressTorus := fun x => ⟨x, x⟩

/-! ### `computeTwistEquation` / `AssertIsOnTwist` -/

/-- `Pairing.computeTwistEquation` over an abstract commutative ring `R`
standing for the quadratic extension (spec-modelled: `Ext2`'s arithmetic is
outside the excerpt; `Square`/`Mul`/`Add` are the ring operations, `IsZero`
the zero test, `And` the boolean product, `Select` the gated choice).
Returns the two sides of the twist equation, with the curve constant zeroed
when `Q = (0, 0)`. -/
def computeTwistEquation {R : Type} [CommRing R] [DecidableEq R]
    (bTwist X Y : R) : R × R :=
  let selector : Bool := decide (X = 0) && decide (Y = 0)
  let b : R := if selector then 0 else bTwist
  (Y * Y, X * X * X + b)

/-- `Pairing.AssertIsOnTwist` asserts the two sides equal: `true` iff the
emitted constraints are satisfiable. -/
def AssertIsOnTwistOk {R : Type} [CommRing R] [DecidableEq R]
    (bTwist X Y : R) : Bool :=
  decide ((computeTwistEquation bTwist X Y).1 =
    (computeTwistEquation bTwist X Y).2)

end Pairing

/-! ## Properties of the embedded definitions -/

namespace Emulated

theorem natDigits_length (w n x : ℕ) : (natDigits w n x).length = n := by
  induction n generalizing x with
  | zero => rfl
  | succ n ih => simp [natDigits, ih]

theorem natDigits_lt (w n x : ℕ) : ∀ l ∈ natDigits w n x, l < 2 ^ w := by
  induction n generalizing x with
  | zero => intro l h; simp [natDigits] at h
  | succ n ih =>
    intro l h
    simp only [natDigits, List.mem_cons] at h
    rcases h with h | h
    · subst h; exact Nat.mod_lt _ (Nat.pos_pow_of_pos _ (by norm_num))
    · exact ih _ _ h

theorem mod_mul_decomp (x a b : ℕ) :
    x % (a * b) = x % a + a * (x / a % b) := by
  conv_lhs => rw [← Nat.div_add_mod (x % (a * b)) a]
  rw [Nat.mod_mul_right_div_self, Nat.mod_mod_of_dvd _ ⟨b, rfl⟩]
  ring

theorem elemValue_natDigits (w n x : ℕ) :
    elemValue w (natDigits w n x) = x % 2 ^ (w * n) := by
  induction n generalizing x with
  | zero => simp [natDigits, elemValue, Nat.mod_one]
  | succ n ih =>
    simp only [natDigits, elemValue, ih]
    have hsplit : (2 : ℕ) ^ (w * (n + 1)) = 2 ^ w * 2 ^ (w * n) := by
      rw [← pow_add]; congr 1; ring
    rw [hsplit, mod_mul_decomp x (2 ^ w) (2 ^ (w * n))]

theorem elemValue_append (w : ℕ) (L1 L2 : List ℕ) :
    elemValue w (L1 ++ L2) =
      elemValue w L1 + 2 ^ (w * L1.length) * elemValue w L2 := by
  induction L1 with
  | nil => simp [elemValue]
  | cons l ls ih =>
    simp only [List.cons_append, List.append_eq, elemValue, ih, List.length_cons]
    rw [Nat.mul_succ, pow_add]
    ring

theorem elemValue_lt (w : ℕ) (L : List ℕ) (h : ∀ l ∈ L, l < 2 ^ w) :
    elemValue w L < 2 ^ (w * L.length) := by
  induction L with
  | nil => simp [elemValue]
  | cons l ls ih =>
    simp only [elemValue, List.length_cons]
    have h1 : l < 2 ^ w := h l (List.mem_cons_self _ _)
    have h2 : elemValue w ls < 2 ^ (w * ls.length) :=
      ih (fun x hx => h x (List.mem_cons_of_mem _ hx))
    calc l + 2 ^ w * elemValue w ls
        < 2 ^ w + 2 ^ w * elemValue w ls := by omega
      _ = 2 ^ w * (elemValue w ls + 1) := by ring
      _ ≤ 2 ^ w * 2 ^ (w * ls.length) := by
          exact Nat.mul_le_mul_left _ (by omega)
      _ = 2 ^ (w * (ls.length + 1)) := by rw [← pow_add]; congr 1; ring

/-- Uniqueness of the bounded limb representation. -/
theorem natDigits_elemValue (w : ℕ) (L : List ℕ) (h : ∀ l ∈ L, l < 2 ^ w) :
    natDigits w L.length (elemValue w L) = L := by
  induction L with
  | nil => rfl
  | cons l ls ih =>
    have hl : l < 2 ^ w := h l (List.mem_cons_self _ _)
    have hls : ∀ x ∈ ls, x < 2 ^ w := fun x hx => h x (List.mem_cons_of_mem _ hx)
    simp only [List.length_cons, natDigits, elemValue, List.cons.injEq]
    refine ⟨?_, ?_⟩
    · rw [Nat.add_mul_mod_self_left, Nat.mod_eq_of_lt hl]
    · rw [Nat.add_mul_div_left _ _ (Nat.pos_pow_of_pos _ (by norm_num)),
        Nat.div_eq_of_lt hl, Nat.zero_add]
      exact ih hls

theorem natDigits_add (w m n x : ℕ) :
    natDigits w (m + n) x =
      natDigits w m x ++ natDigits w n (x / 2 ^ (w * m)) := by
  induction m generalizing x with
  | zero => simp [natDigits]
  | succ m ih =>
    have : m + 1 + n = (m + n) + 1 := by omega
    rw [this]
    simp only [natDigits, ih, List.cons_append]
    congr 2
    rw [Nat.div_div_eq_div_mul, ← pow_add]
    have hexp : w + w * m = w * (m + 1) := by ring
    rw [hexp]

theorem natDigits_mod (w n x : ℕ) :
    natDigits w n (x % 2 ^ (w * n)) = natDigits w n x := by
  induction n generalizing x with
  | zero => rfl
  | succ n ih =>
    have hsplit : (2 : ℕ) ^ (w * (n + 1)) = 2 ^ w * 2 ^ (w * n) := by
      rw [← pow_add]; congr 1; ring
    simp only [natDigits, List.cons.injEq, hsplit]
    refine ⟨?_, ?_⟩
    · exact Nat.mod_mod_of_dvd x ⟨2 ^ (w * n), rfl⟩
    · rw [Nat.mod_mul_right_div_self]
      exact ih (x / 2 ^ w)

theorem natDigits_take (w n k x : ℕ) (h : k ≤ n) :
    (natDigits w n x).take k = natDigits w k x := by
  induction k generalizing n x with
  | zero => simp [natDigits]
  | succ k ih =>
    cases n with
    | zero => omega
    | succ n => simp only [natDigits, List.take_succ_cons]; rw [ih _ _ (by omega)]

theorem toBitsLoop_fst_length (w ov : ℕ) (L : List ℕ) (c : ℕ) :
    (toBitsLoop w ov L c).1.length = L.length * w := by
  induction L generalizing c with
  | nil => simp [toBitsLoop]
  | cons l rest ih =>
    simp only [toBitsLoop, List.length_append, List.length_take,
      natDigits_length, List.length_cons, ih, Nat.succ_mul]
    omega

theorem toBitsLoop_snd_length (w ov : ℕ) (L : List ℕ) (c : ℕ) (h : L ≠ []) :
    (toBitsLoop w ov L c).2.length = w + ov := by
  induction L generalizing c with
  | nil => exact absurd rfl h
  | cons l rest ih =>
    simp only [toBitsLoop]
    cases rest with
    | nil => simp [natDigits_length]
    | cons r rs => simpa using ih _ (by simp)

theorem ToBits_length (w ov : ℕ) (limbs : List ℕ) (h : limbs ≠ []) :
    (ToBits w ov limbs).length = limbs.length * w + ov := by
  simp only [ToBits, List.length_append, toBitsLoop_fst_length,
    List.length_take, List.length_drop, toBitsLoop_snd_length w ov limbs 0 h]
  omega

theorem toBitsLoop_zero_ov (w : ℕ) (L : List ℕ) :
    (toBitsLoop w 0 L 0).1 = (L.map (fun l => natDigits 1 w l)).flatten := by
  induction L with
  | nil => rfl
  | cons l rest ih =>
    simp only [toBitsLoop, Nat.lt_irrefl, if_false, Nat.add_zero, ih,
      List.map_cons, List.flatten_cons, List.cons.injEq]
    rw [natDigits_take 1 w w l (le_refl w)]

theorem ToBits_zero_ov (w : ℕ) (L : List ℕ) :
    ToBits w 0 L = (L.map (fun l => natDigits 1 w l)).flatten := by
  simp [ToBits, toBitsLoop_zero_ov]

theorem ToBits_natDigits (w n x : ℕ) :
    ToBits w 0 (natDigits w n x) = natDigits 1 (w * n) x := by
  rw [ToBits_zero_ov]
  induction n generalizing x with
  | zero => simp [natDigits]
  | succ n ih =>
    simp only [natDigits, List.map_cons, List.flatten_cons, ih]
    have h1 : natDigits 1 w (x % 2 ^ w) = natDigits 1 w x := by
      have := natDigits_mod 1 w x
      rwa [one_mul] at this
    have h2 : natDigits 1 (w * (n + 1)) x =
        natDigits 1 w x ++ natDigits 1 (w * n) (x / 2 ^ w) := by
      have := natDigits_add 1 w (w * n) x
      rw [one_mul] at this
      rw [← this]; congr 1; ring
    rw [h1, h2]

theorem elemValue_one_ToBits (w : ℕ) (L : List ℕ) (h : ∀ l ∈ L, l < 2 ^ w) :
    elemValue 1 (ToBits w 0 L) = elemValue w L := by
  rw [ToBits_zero_ov]
  induction L with
  | nil => rfl
  | cons l rest ih =>
    have hl : l < 2 ^ w := h l (List.mem_cons_self _ _)
    simp only [List.map_cons, List.flatten_cons, elemValue]
    rw [elemValue_append, natDigits_length, one_mul, elemValue_natDigits,
      one_mul, Nat.mod_eq_of_lt hl,
      ih (fun x hx => h x (List.mem_cons_of_mem _ hx))]

theorem ToBits_bits_lt_two (w ov : ℕ) (L : List ℕ) :
    ∀ b ∈ ToBits w ov L, b < 2 := by
  have hloop : ∀ (M : List ℕ) (c : ℕ),
      (∀ b ∈ (toBitsLoop w ov M c).1, b < 2) ∧
      (∀ b ∈ (toBitsLoop w ov M c).2, b < 2) := by
    intro M
    induction M with
    | nil => intro c; exact ⟨by simp [toBitsLoop], by simp [toBitsLoop]⟩
    | cons l rest ih =>
      intro c
      simp only [toBitsLoop]
      constructor
      · intro b hb
        rcases List.mem_append.mp hb with hb | hb
        · exact natDigits_lt 1 (w + ov) (l + c) b (List.mem_of_mem_take hb)
        · exact (ih _).1 b hb
      · intro b hb
        by_cases hre : rest.isEmpty
        · simp only [hre, if_true] at hb
          exact natDigits_lt 1 (w + ov) (l + c) b hb
        · simp only [hre, if_false] at hb
          exact (ih _).2 b hb
  intro b hb
  rcases List.mem_append.mp hb with hb | hb
  · exact (hloop L 0).1 b hb
  · exact (hloop L 0).2 b (List.mem_of_mem_drop (List.mem_of_mem_take hb))

theorem elemValue_chunkAux (w : ℕ) (hw : 0 < w) (fuel : ℕ) :
    ∀ bs : List ℕ, bs.length ≤ fuel + w →
      elemValue w (chunkAux w fuel bs) = elemValue 1 bs := by
  induction fuel with
  | zero =>
    intro bs hbs
    simp [chunkAux, elemValue]
  | succ fuel ih =>
    intro bs hbs
    by_cases hlen : bs.length ≤ w
    · simp [chunkAux, hlen, elemValue]
    · simp only [chunkAux, hlen, if_false, elemValue]
      rw [ih (bs.drop w) (by simp only [List.length_drop]; omega)]
      conv_rhs => rw [← List.take_append_drop w bs]
      rw [elemValue_append, List.length_take, one_mul]
      have : min w bs.length = w := by omega
      rw [this]

/-- The value of the element built by `FromBits` is the binary value of the
input bit string. -/
theorem elemValue_FromBits (w : ℕ) (hw : 0 < w) (bs : List ℕ) :
    elemValue w (FromBits w bs) = elemValue 1 bs :=
  elemValue_chunkAux w hw bs.length bs (by omega)

theorem tzAux_dvd (fuel : ℕ) : ∀ n : ℕ, n ≤ fuel → 2 ^ tzAux fuel n ∣ n := by
  induction fuel with
  | zero => intro n hn; interval_cases n; simp [tzAux]
  | succ fuel ih =>
    intro n hn
    by_cases h0 : n = 0
    · simp [h0]
    by_cases h2 : n % 2 = 0
    · have hrec : 2 ^ tzAux fuel (n / 2) ∣ n / 2 := ih (n / 2) (by omega)
      simp only [tzAux, h0, if_false, h2, if_true]
      obtain ⟨k, hk⟩ := hrec
      have hn2 : n = 2 * (n / 2) := by omega
      refine ⟨k, ?_⟩
      rw [pow_succ]
      calc n = 2 * (n / 2) := hn2
        _ = 2 * (2 ^ tzAux fuel (n / 2) * k) := by conv_lhs => rw [hk]
        _ = 2 ^ tzAux fuel (n / 2) * 2 * k := by ring
    · simp [tzAux, h0, h2]

theorem two_pow_trailingZeroBits_dvd (n : ℕ) : 2 ^ trailingZeroBits n ∣ n :=
  tzAux_dvd n n (le_refl n)

theorem tzAux_two_pow (fuel : ℕ) : ∀ k : ℕ, 2 ^ k ≤ fuel → tzAux fuel (2 ^ k) = k := by
  induction fuel with
  | zero =>
    intro k hk
    exfalso
    have : 0 < 2 ^ k := by positivity
    omega
  | succ fuel ih =>
    intro k hk
    cases k with
    | zero => simp [tzAux]
    | succ k =>
      have hne : (2 : ℕ) ^ (k + 1) ≠ 0 := by positivity
      have hmod : 2 ^ (k + 1) % 2 = 0 := by
        simp [pow_succ, Nat.mul_mod_left]
      have hdiv : 2 ^ (k + 1) / 2 = 2 ^ k := by
        rw [pow_succ]; exact Nat.mul_div_cancel _ (by norm_num)
      simp only [tzAux, hne, if_false, hmod, if_true, hdiv]
      have h2k : 2 ^ k ≤ fuel := by
        have : 2 ^ k < 2 ^ (k + 1) := by
          exact Nat.pow_lt_pow_right (by norm_num) (by omega)
        omega
      rw [ih k h2k]

theorem trailingZeroBits_two_pow (k : ℕ) : trailingZeroBits (2 ^ k) = k :=
  tzAux_two_pow (2 ^ k) k (le_refl _)

theorem blAux_zero (fuel : ℕ) : blAux fuel 0 = 0 := by
  cases fuel <;> simp [blAux]

theorem blAux_lt (fuel : ℕ) : ∀ n : ℕ, n ≤ fuel → n < 2 ^ blAux fuel n := by
  induction fuel with
  | zero => intro n hn; interval_cases n; simp [blAux]
  | succ fuel ih =>
    intro n hn
    by_cases h0 : n = 0
    · simp [h0, blAux]
    · have hrec : n / 2 < 2 ^ blAux fuel (n / 2) := ih (n / 2) (by omega)
      simp only [blAux, h0, if_false, pow_succ]
      omega

theorem bitLen_lt (n : ℕ) : n < 2 ^ bitLen n := blAux_lt n n (le_refl n)

theorem blAux_le (fuel : ℕ) :
    ∀ n m : ℕ, n ≤ fuel → n < 2 ^ m → blAux fuel n ≤ m := by
  induction fuel with
  | zero => intro n m hn _; interval_cases n; simp [blAux]
  | succ fuel ih =>
    intro n m hn hm
    by_cases h0 : n = 0
    · simp [h0, blAux]
    · have hmpos : 0 < m := by
        rcases Nat.eq_zero_or_pos m with h | h
        · subst h; simp at hm; omega
        · exact h
      have hhalf : n / 2 < 2 ^ (m - 1) := by
        have h2 : (2 : ℕ) ^ m = 2 ^ (m - 1) * 2 := by
          rw [← pow_succ]; congr 1; omega
        omega
      have hrec : blAux fuel (n / 2) ≤ m - 1 := ih (n / 2) (m - 1) (by omega) hhalf
      simp only [blAux, h0, if_false]
      omega

theorem bitLen_le {n m : ℕ} (h : n < 2 ^ m) : bitLen n ≤ m :=
  blAux_le n n m (le_refl n) h

theorem blAux_two_pow (fuel : ℕ) :
    ∀ k : ℕ, 2 ^ k ≤ fuel → blAux fuel (2 ^ k) = k + 1 := by
  induction fuel with
  | zero =>
    intro k hk
    exfalso
    have : 0 < 2 ^ k := by positivity
    omega
  | succ fuel ih =>
    intro k hk
    cases k with
    | zero => simp [blAux, blAux_zero]
    | succ k =>
      have hne : (2 : ℕ) ^ (k + 1) ≠ 0 := by positivity
      have hdiv : 2 ^ (k + 1) / 2 = 2 ^ k := by
        rw [pow_succ]; exact Nat.mul_div_cancel _ (by norm_num)
      simp only [blAux, hne, if_false, hdiv]
      have h2k : 2 ^ k ≤ fuel := by
        have : 2 ^ k < 2 ^ (k + 1) := Nat.pow_lt_pow_right (by norm_num) (by omega)
        omega
      rw [ih k h2k]

theorem bitLen_two_pow (k : ℕ) : bitLen (2 ^ k) = k + 1 :=
  blAux_two_pow (2 ^ k) k (le_refl _)

theorem bitLen_pos {n : ℕ} (h : 0 < n) : 0 < bitLen n := by
  by_contra hz
  push_neg at hz
  interval_cases hb : bitLen n
  have := bitLen_lt n
  rw [hb] at this
  omega

/-- A positive number whose trailing-zero count is one less than its bit
length is the corresponding power of two. -/
theorem eq_two_pow_of_trailingZeroBits (p : ℕ) (hp : 0 < p)
    (h : trailingZeroBits p = bitLen p - 1) : p = 2 ^ (bitLen p - 1) := by
  obtain ⟨k, hk⟩ := two_pow_trailingZeroBits_dvd p
  rw [h] at hk
  have hlt : p < 2 ^ bitLen p := bitLen_lt p
  have hbl : 0 < bitLen p := bitLen_pos hp
  have h2 : (2 : ℕ) ^ bitLen p = 2 ^ (bitLen p - 1) * 2 := by
    rw [← pow_succ]; congr 1; omega
  have ht : 0 < 2 ^ (bitLen p - 1) := by positivity
  have hklt : k < 2 := by
    have hlt2 : 2 ^ (bitLen p - 1) * k < 2 ^ (bitLen p - 1) * 2 := by
      rw [← hk, ← h2]; exact hlt
    exact Nat.lt_of_mul_lt_mul_left hlt2
  have hkpos : 0 < k := by
    rcases Nat.eq_zero_or_pos k with h0 | h0
    · subst h0; rw [Nat.mul_zero] at hk; omega
    · exact h0
  have hk1 : k = 1 := by omega
  rw [hk1, Nat.mul_one] at hk
  exact hk

theorem nbBitsCanonical_le_and_lt (w n p x : ℕ) (hp : 2 ≤ p)
    (hpn : p ≤ 2 ^ (w * n)) (hx : x < p) :
    nbBitsCanonical p ≤ w * n ∧ x < 2 ^ nbBitsCanonical p := by
  unfold nbBitsCanonical
  by_cases htz : trailingZeroBits p = bitLen p - 1
  · simp only [htz, if_true]
    have hpow := eq_two_pow_of_trailingZeroBits p (by omega) htz
    constructor
    · have hle : (2 : ℕ) ^ (bitLen p - 1) ≤ 2 ^ (w * n) := by rw [← hpow]; exact hpn
      exact (Nat.pow_le_pow_iff_right (by norm_num)).mp hle
    · rw [← hpow]; exact hx
  · simp only [htz, if_false]
    have hne : p ≠ 2 ^ (w * n) := by
      intro he
      apply htz
      rw [he, trailingZeroBits_two_pow, bitLen_two_pow]
      omega
    have hlt : p < 2 ^ (w * n) := lt_of_le_of_ne hpn hne
    exact ⟨bitLen_le hlt, lt_trans hx (bitLen_lt p)⟩

theorem elemValue_replicate_zero (w k : ℕ) :
    elemValue w (List.replicate k 0) = 0 := by
  induction k with
  | zero => rfl
  | succ k ih => simp [List.replicate, elemValue, ih]

theorem elemValue_padTo (w k : ℕ) (bs : List ℕ) :
    elemValue w (padTo k bs) = elemValue w bs := by
  rw [padTo, elemValue_append, elemValue_replicate_zero, Nat.mul_zero, Nat.add_zero]

theorem leFold_zero (L : List (ℕ × ℕ)) (h : ∀ pr ∈ L, pr.1 < 2) :
    leFold L 0 = true := by
  induction L with
  | nil => rfl
  | cons pr rest ih =>
    obtain ⟨eb, ab⟩ := pr
    have heb : eb < 2 := h (eb, ab) (List.mem_cons_self _ _)
    have hrest := ih (fun q hq => h q (List.mem_cons_of_mem _ hq))
    simp only [leFold, Bool.and_eq_true, decide_eq_true_eq]
    constructor
    · interval_cases eb <;> by_cases hab : ab = 0 <;> simp [hab]
    · by_cases hab : ab = 0 <;> simp only [hab, if_true, if_false] <;>
        [exact hrest; · rw [Int.zero_mul]; exact hrest]

theorem leFold_one (L : List (ℕ × ℕ))
    (h : ∀ pr ∈ L, pr.1 < 2 ∧ pr.2 < 2) :
    (leFold L 1 = true) ↔
      elemValue 1 (L.map Prod.fst).reverse ≤ elemValue 1 (L.map Prod.snd).reverse := by
  induction L with
  | nil => simp [leFold]
  | cons pr rest ih =>
    obtain ⟨eb, ab⟩ := pr
    obtain ⟨heb, hab⟩ := h (eb, ab) (List.mem_cons_self _ _)
    have hrest : ∀ pr ∈ rest, pr.1 < 2 ∧ pr.2 < 2 :=
      fun q hq => h q (List.mem_cons_of_mem _ hq)
    have hE : elemValue 1 (rest.map Prod.fst).reverse < 2 ^ rest.length := by
      have := elemValue_lt 1 (rest.map Prod.fst).reverse (by
        intro b hb
        rw [List.mem_reverse] at hb
        obtain ⟨q, hq, hqe⟩ := List.mem_map.mp hb
        exact hqe ▸ (hrest q hq).1)
      simpa using this
    have hA : elemValue 1 (rest.map Prod.snd).reverse < 2 ^ rest.length := by
      have := elemValue_lt 1 (rest.map Prod.snd).reverse (by
        intro b hb
        rw [List.mem_reverse] at hb
        obtain ⟨q, hq, hqe⟩ := List.mem_map.mp hb
        exact hqe ▸ (hrest q hq).2)
      simpa using this
    have hval : ∀ (c : ℕ) (M : List ℕ),
        elemValue 1 (M.reverse ++ [c]) = elemValue 1 M.reverse + 2 ^ M.length * c := by
      intro c M
      rw [elemValue_append]
      simp [elemValue, one_mul]
    simp only [List.map_cons, List.reverse_cons, hval, List.length_map]
    interval_cases eb <;> interval_cases ab
    · simpa [leFold] using ih hrest
    · simp only [leFold]
      norm_num
      rw [leFold_zero rest (fun q hq => (hrest q hq).1)]
      simp only [true_iff]
      omega
    · simp only [leFold]
      norm_num
      omega
    · simp only [leFold]
      norm_num
      rw [ih hrest]

theorem assertIsLessOrEqualBits_iff (ebits abits : List ℕ)
    (he : ∀ b ∈ ebits, b < 2) (ha : ∀ b ∈ abits, b < 2) :
    assertIsLessOrEqualBits ebits abits = true ↔
      elemValue 1 ebits ≤ elemValue 1 abits := by
  unfold assertIsLessOrEqualBits
  set n := max ebits.length abits.length with hn
  have hlen : (padTo n ebits).length = (padTo n abits).length := by
    simp [padTo]; omega
  have hboole : ∀ b ∈ padTo n ebits, b < 2 := by
    intro b hb
    rcases List.mem_append.mp hb with hb | hb
    · exact he b hb
    · rw [List.eq_of_mem_replicate hb]; norm_num
  have hboola : ∀ b ∈ padTo n abits, b < 2 := by
    intro b hb
    rcases List.mem_append.mp hb with hb | hb
    · exact ha b hb
    · rw [List.eq_of_mem_replicate hb]; norm_num
  rw [leFold_one _ (by
    intro pr hpr
    rw [List.mem_reverse] at hpr
    exact ⟨hboole _ (List.of_mem_zip hpr).1, hboola _ (List.of_mem_zip hpr).2⟩)]
  rw [List.map_reverse, List.map_reverse, List.reverse_reverse, List.reverse_reverse,
    List.map_fst_zip _ _ (le_of_eq hlen), List.map_snd_zip _ _ (ge_of_eq hlen),
    elemValue_padTo, elemValue_padTo]

theorem isZeroLimbwise_eq (L : List ℕ) :
    isZeroLimbwise L = if ∀ l ∈ L, l = 0 then 1 else 0 := by
  induction L with
  | nil => rfl
  | cons l ls ih =>
    unfold isZeroLimbwise at ih ⊢
    rw [List.map_cons, List.prod_cons, ih]
    by_cases hl : l = 0
    · subst hl
      by_cases hls : ∀ x ∈ ls, x = 0 <;> simp [isZeroNative, hls]
    · by_cases hls : ∀ x ∈ ls, x = 0 <;> simp [isZeroNative, hl, hls]

theorem list_sum_eq_zero_iff (L : List ℕ) : L.sum = 0 ↔ ∀ l ∈ L, l = 0 := by
  induction L with
  | nil => simp
  | cons l ls ih => simp [List.sum_cons, ih, Nat.add_eq_zero]

theorem isZeroSum_eq (L : List ℕ) :
    isZeroSum L = if ∀ l ∈ L, l = 0 then 1 else 0 := by
  unfold isZeroSum isZeroNative
  by_cases h : ∀ l ∈ L, l = 0
  · rw [if_pos h]
    have hs : L.sum = 0 := (list_sum_eq_zero_iff L).mpr h
    simp [hs]
  · rw [if_neg h]
    have hs : L.sum ≠ 0 := fun hs => h ((list_sum_eq_zero_iff L).mp hs)
    have hz : Int.ofNat L.sum ≠ 0 := fun hz => hs (Int.ofNat_eq_zero.mp hz)
    rw [if_neg hz]

theorem elemValue_eq_zero_iff (w : ℕ) (L : List ℕ) :
    elemValue w L = 0 ↔ ∀ l ∈ L, l = 0 := by
  induction L with
  | nil => simp [elemValue]
  | cons l ls ih =>
    have h2 : 0 < 2 ^ w := by positivity
    simp only [elemValue, List.mem_cons]
    constructor
    · intro h
      have hl : l = 0 := by omega
      have hls : elemValue w ls = 0 := by
        rcases Nat.eq_zero_or_pos (elemValue w ls) with h0 | h0
        · exact h0
        · exfalso; nlinarith
      intro x hx
      rcases hx with hx | hx
      · rw [hx]; exact hl
      · exact ih.mp hls x hx
    · intro h
      have hl : l = 0 := h l (Or.inl rfl)
      have hls : elemValue w ls = 0 := ih.mpr (fun x hx => h x (Or.inr hx))
      rw [hl, hls, Nat.mul_zero]

theorem eqModulusLimbwise_eq (P C : List ℕ) (h : P.length = C.length) :
    eqModulusLimbwise P C = if P = C then 1 else 0 := by
  induction P generalizing C with
  | nil =>
    cases C with
    | nil => simp [eqModulusLimbwise]
    | cons c cs => simp at h
  | cons p ps ih =>
    cases C with
    | nil => simp at h
    | cons c cs =>
      simp only [List.length_cons] at h
      simp only [eqModulusLimbwise, List.zip_cons_cons, List.map_cons,
        List.prod_cons] at *
      rw [ih cs (by omega)]
      by_cases hpc : p = c
      · subst hpc
        by_cases hps : ps = cs <;> simp [isZeroNative, hps]
      · have hne : (p : ℤ) - c ≠ 0 := by
          intro he
          exact hpc (by exact_mod_cast sub_eq_zero.mp he)
        by_cases hps : ps = cs <;> simp [isZeroNative, hne, hpc, hps]

theorem mod_eq_zero_cases (v p : ℕ) (hv : v < 2 * p) :
    v % p = 0 ↔ v = 0 ∨ v = p := by
  constructor
  · intro h
    obtain ⟨k, hk⟩ := Nat.dvd_of_mod_eq_zero h
    have hk2 : k < 2 := by
      by_contra hge
      push_neg at hge
      have : 2 * p ≤ p * k := by nlinarith
      omega
    interval_cases k <;> omega
  · rintro (h | h) <;> simp [h, Nat.mod_self]

end Emulated

namespace Pairing

theorem e12_update_A0_self {F : Type} (e : E12 F) :
    ({ e with C1 := { e.C1 with B0 := { e.C1.B0 with
      A0 := e.C1.B0.A0 } } }) = e := by
  rcases e with ⟨c0, ⟨⟨a0, a1⟩, b1, b2⟩⟩
  rfl

end Pairing

/-! ## The claims -/

/-- C1: for every valid limb-width configuration (`0 < w` bits per limb, `n`
limbs able to hold the modulus) and every integer `0 ≤ x < p`, binding `x`
and applying `FromBits` to the output of `ToBitsCanonical` yields an element
whose value is exactly `x`; moreover `ToBitsCanonical` returns exactly
`nbBitsCanonical p` bits, which is `bitLen p` or one fewer when `p` is an
exact power of two. -/
theorem C1_fromBits_toBitsCanonical_round_trip (w n p x : ℕ)
    (hw : 0 < w) (hp : 2 ≤ p) (hpn : p ≤ 2 ^ (w * n)) (hx : x < p) :
    Emulated.elemValue w
        (Emulated.FromBits w (Emulated.ToBitsCanonical w n p x)) = x ∧
    (Emulated.ToBitsCanonical w n p x).length = Emulated.nbBitsCanonical p := by
  obtain ⟨hle, hxlt⟩ := Emulated.nbBitsCanonical_le_and_lt w n p x hp hpn hx
  have hxp : x % p = x := Nat.mod_eq_of_lt hx
  have hkey : Emulated.ToBitsCanonical w n p x =
      Emulated.natDigits 1 (Emulated.nbBitsCanonical p) x := by
    unfold Emulated.ToBitsCanonical Emulated.ReduceStrict
    rw [hxp, Emulated.ToBits_natDigits,
      Emulated.natDigits_take 1 (w * n) (Emulated.nbBitsCanonical p) x hle]
  rw [hkey]
  constructor
  · rw [Emulated.elemValue_FromBits w hw, Emulated.elemValue_natDigits,
      one_mul, Nat.mod_eq_of_lt hxlt]
  · rw [Emulated.natDigits_length]

theorem C1_fromBits_toBitsCanonical_round_trip_witness :
    (0 < 2 ∧ 2 ≤ 5 ∧ 5 ≤ 2 ^ (2 * 2) ∧ 3 < 5) ∧
    Emulated.elemValue 2
        (Emulated.FromBits 2 (Emulated.ToBitsCanonical 2 2 5 3)) = 3 ∧
    (Emulated.ToBitsCanonical 2 2 5 3).length = Emulated.nbBitsCanonical 5 :=
  ⟨⟨by decide, by decide, by decide, by decide⟩,
    C1_fromBits_toBitsCanonical_round_trip 2 2 5 3
      (by decide) (by decide) (by decide) (by decide)⟩

/-- C5: `ToBits` on an element with limb values `limbs` and declared overflow
`ov` returns a little-endian bit sequence whose length is exactly
(number of limbs) × bitsPerLimb + overflow, each limb being decomposed (with
the carry from the previous limb's excess bits) into `bitsPerLimb + overflow`
bits, the final carry bits being appended. -/
theorem C5_toBits_bit_count (w ov : ℕ) (limbs : List ℕ) (h : limbs ≠ []) :
    (Emulated.ToBits w ov limbs).length = limbs.length * w + ov :=
  Emulated.ToBits_length w ov limbs h

theorem C5_toBits_bit_count_witness :
    ([3, 1, 2] : List ℕ) ≠ [] ∧
    (Emulated.ToBits 4 2 [3, 1, 2]).length = 3 * 4 + 2 :=
  ⟨by decide, C5_toBits_bit_count 4 2 [3, 1, 2] (by decide)⟩

/-- C4: for zero-overflow operands (nonzero overflow aborts the build, the
`none` case), the constraints emitted by `AssertIsLessOrEqual(e, a)` are
satisfied exactly when the value of `e` is at most the value of `a`, also
when the operands have different bit lengths (the shorter side is zero-padded
at the most significant end).  The limb bounds are the width checks the
source enforces on the same elements. -/
theorem C4_assertIsLessOrEqual_iff_le (w : ℕ) (eLimbs aLimbs : List ℕ)
    (he : ∀ l ∈ eLimbs, l < 2 ^ w) (ha : ∀ l ∈ aLimbs, l < 2 ^ w) :
    (Emulated.AssertIsLessOrEqual w 0 0 eLimbs aLimbs = some true ↔
      Emulated.elemValue w eLimbs ≤ Emulated.elemValue w aLimbs) := by
  unfold Emulated.AssertIsLessOrEqual
  norm_num
  rw [Emulated.assertIsLessOrEqualBits_iff _ _
      (Emulated.ToBits_bits_lt_two w 0 eLimbs)
      (Emulated.ToBits_bits_lt_two w 0 aLimbs),
    Emulated.elemValue_one_ToBits w eLimbs he,
    Emulated.elemValue_one_ToBits w aLimbs ha]

/-- C3: `IsZero(a)` returns the boolean 1 exactly when the represented value
is congruent to 0 modulo the emulated modulus.  `caLimbs` are the limbs of
the loose reduction of `a` (spec-modelled postconditions as hypotheses:
width-bounded limbs, value below `2·p`), `natDigits w n p` the modulus
limbs, `maxOv` the native overflow budget selecting between the two
equivalent all-zero checks.  The all-zero-limb constant fast path (value 0,
result 1) is subsumed by the stated equivalence. -/
theorem C3_isZero_iff_congruent_zero (w n maxOv p : ℕ) (caLimbs : List ℕ)
    (hlen : caLimbs.length = n) (hpn : p < 2 ^ (w * n))
    (hbound : ∀ l ∈ caLimbs, l < 2 ^ w)
    (hloose : Emulated.elemValue w caLimbs < 2 * p) :
    (Emulated.IsZero maxOv caLimbs (Emulated.natDigits w n p) = 1 ↔
      Emulated.elemValue w caLimbs % p = 0) := by
  have hres0 : (if caLimbs.length - 1 > maxOv then Emulated.isZeroLimbwise caLimbs
      else Emulated.isZeroSum caLimbs) =
      if Emulated.elemValue w caLimbs = 0 then 1 else 0 := by
    rw [Emulated.isZeroLimbwise_eq, Emulated.isZeroSum_eq, ite_self]
    exact if_congr (Emulated.elemValue_eq_zero_iff w caLimbs).symm rfl rfl
  have hresP : Emulated.eqModulusLimbwise (Emulated.natDigits w n p) caLimbs =
      if Emulated.elemValue w caLimbs = p then 1 else 0 := by
    rw [Emulated.eqModulusLimbwise_eq _ _
      (by rw [Emulated.natDigits_length, hlen])]
    refine if_congr ?_ rfl rfl
    constructor
    · intro he
      have hev := congrArg (Emulated.elemValue w) he
      rw [Emulated.elemValue_natDigits, Nat.mod_eq_of_lt hpn] at hev
      exact hev.symm
    · intro he
      have huniq := Emulated.natDigits_elemValue w caLimbs hbound
      rw [hlen] at huniq
      rw [← he]
      exact huniq
  simp only [Emulated.IsZero]
  rw [hres0, hresP, Emulated.mod_eq_zero_cases _ p hloose]
  unfold Emulated.orNative
  by_cases h0 : Emulated.elemValue w caLimbs = 0 <;>
    by_cases hq : Emulated.elemValue w caLimbs = p <;>
    simp [h0, hq]

theorem C3_isZero_iff_congruent_zero_witness :
    (([1, 1] : List ℕ).length = 2 ∧ 5 < 2 ^ (2 * 2) ∧
      (∀ l ∈ ([1, 1] : List ℕ), l < 2 ^ 2) ∧
      Emulated.elemValue 2 [1, 1] < 2 * 5) ∧
    (Emulated.IsZero 6 [1, 1] (Emulated.natDigits 2 2 5) = 1 ↔
      Emulated.elemValue 2 [1, 1] % 5 = 0) :=
  ⟨⟨by decide, by decide, by decide, by decide⟩,
    C3_isZero_iff_congruent_zero 2 2 6 5 [1, 1]
      (by decide) (by decide) (by decide) (by decide)⟩

theorem C4_assertIsLessOrEqual_iff_le_witness :
    (∀ l ∈ ([1, 1] : List ℕ), l < 2 ^ 2) ∧
    (∀ l ∈ ([2, 1, 0] : List ℕ), l < 2 ^ 2) ∧
    (Emulated.AssertIsLessOrEqual 2 0 0 [1, 1] [2, 1, 0] = some true ↔
      Emulated.elemValue 2 [1, 1] ≤ Emulated.elemValue 2 [2, 1, 0]) :=
  ⟨by decide, by decide,
    C4_assertIsLessOrEqual_iff_le 2 [1, 1] [2, 1, 0] (by decide) (by decide)⟩

/-- C8: `AssertIsEqual(a, b)` panics at build time exactly when both
operands are constants whose values differ after reduction modulo the
modulus (and then emits nothing); in every other case it emits the single
constraint that the operands' values are congruent modulo the modulus. -/
theorem C8_assertIsEqual_const_panic (p : ℕ) (x y : Emulated.EElement) :
    (Emulated.assertIsEqualPanics p x y = true ↔
      x.isConst = true ∧ y.isConst = true ∧ ¬ x.value ≡ y.value [MOD p]) ∧
    (Emulated.assertIsEqualHolds p x y = true ↔
      ((x.isConst = true ∧ y.isConst = true) ∨ x.value ≡ y.value [MOD p])) := by
  cases x <;> cases y <;>
    simp [Emulated.assertIsEqualPanics, Emulated.assertIsEqualHolds,
      Emulated.EElement.isConst, Emulated.EElement.value, Nat.ModEq]

/-- C6: `MillerLoop` (and `millerLoopLines` on its lines argument) returns a
non-nil input-validation error exactly when the first input slice is empty
or the two input lengths differ, before anything else; otherwise the error
is nil. -/
theorem C6_millerLoop_input_validation (nP nQ : ℕ) :
    (Pairing.MillerLoopErr nP nQ ≠ none ↔ (nP = 0 ∨ nP ≠ nQ)) ∧
    (Pairing.millerLoopLinesErr nP nQ ≠ none ↔ (nP = 0 ∨ nP ≠ nQ)) := by
  unfold Pairing.MillerLoopErr Pairing.millerLoopLinesErr
  by_cases h : nP = 0 ∨ nP ≠ nQ <;> simp [h]

set_option maxRecDepth 4000 in
/-- C7: the constant table `loopCounter` has 66 digits, every digit lies in
{-1, 0, 1}, and as a signed binary expansion it encodes
6·x₀ + 2 = 29793968203157093288 for the BN254 seed x₀ = 4965661367192848881. -/
theorem C7_loopCounter_2naf :
    Pairing.loopCounter.length = 66 ∧
    (∀ d ∈ Pairing.loopCounter, d = -1 ∨ d = 0 ∨ d = 1) ∧
    Pairing.signedBinaryValue Pairing.loopCounter = 29793968203157093288 ∧
    (29793968203157093288 : ℤ) = 6 * 4965661367192848881 + 2 :=
  ⟨by decide, by decide, by decide, by decide⟩

/-- C2: on a Miller-loop output with `e.C1 ≠ 0` and a non-degenerate torus
product term (`t0 + t2 ≠ 0`, as holds in the single-pairing case), the safe
variant and the no-degenerate-input variant of `finalExponentiation`
produce the same GT element; and on the degenerate input 1 (possible for
products of ≥ 2 pairings) the safe variant still returns 1, whereas the
other variant's `DivUnchecked(C0, 0)` is not required to be satisfiable. -/
theorem C2_finalExponentiation_agreement {F : Type} [DecidableEq F]
    (ops : Pairing.GTOps F) (e : Pairing.E12 F)
    (h1 : e.C1 ≠ Pairing.zero6 ops)
    (h2 : ops.add6 (Pairing.finalExpPipeline ops e).1
        (Pairing.finalExpPipeline ops e).2 ≠ Pairing.zero6 ops) :
    Pairing.finalExponentiation ops e false =
      Pairing.finalExponentiation ops e true ∧
    Pairing.finalExponentiation ops (Pairing.one12 ops) false =
      Pairing.one12 ops := by
  constructor
  · unfold Pairing.finalExponentiation
    have hs1 : decide (e.C1 = Pairing.zero6 ops) = false := by
      simpa using h1
    simp only [Bool.false_eq_true, if_false, if_true, hs1,
      Pairing.e12_update_A0_self]
    have hs2 : decide (ops.add6 (Pairing.finalExpPipeline ops e).1
        (Pairing.finalExpPipeline ops e).2 = Pairing.zero6 ops) = false := by
      simpa using h2
    simp only [hs2, Bool.not_false, Bool.and_self, if_true, if_false,
      Bool.false_eq_true]
  · unfold Pairing.finalExponentiation
    have hs1 : decide ((Pairing.one12 ops).C1 = Pairing.zero6 ops) = true := by
      simp [Pairing.one12]
    simp only [Bool.false_eq_true, if_false, hs1, Bool.not_true,
      Bool.false_and, if_true]

theorem C2_finalExponentiation_agreement_witness :
    ((⟨Pairing.one6 Pairing.gtOpsZ, Pairing.one6 Pairing.gtOpsZ⟩ :
        Pairing.E12 ℤ).C1 ≠ Pairing.zero6 Pairing.gtOpsZ) ∧
    (Pairing.gtOpsZ.add6
        (Pairing.finalExpPipeline Pairing.gtOpsZ
          ⟨Pairing.one6 Pairing.gtOpsZ, Pairing.one6 Pairing.gtOpsZ⟩).1
        (Pairing.finalExpPipeline Pairing.gtOpsZ
          ⟨Pairing.one6 Pairing.gtOpsZ, Pairing.one6 Pairing.gtOpsZ⟩).2 ≠
      Pairing.zero6 Pairing.gtOpsZ) ∧
    (Pairing.finalExponentiation Pairing.gtOpsZ
        ⟨Pairing.one6 Pairing.gtOpsZ, Pairing.one6 Pairing.gtOpsZ⟩ false =
      Pairing.finalExponentiation Pairing.gtOpsZ
        ⟨Pairing.one6 Pairing.gtOpsZ, Pairing.one6 Pairing.gtOpsZ⟩ true ∧
    Pairing.finalExponentiation Pairing.gtOpsZ
        (Pairing.one12 Pairing.gtOpsZ) false =
      Pairing.one12 Pairing.gtOpsZ) :=
  ⟨by decide, by decide,
    C2_finalExponentiation_agreement Pairing.gtOpsZ
      ⟨Pairing.one6 Pairing.gtOpsZ, Pairing.one6 Pairing.gtOpsZ⟩
      (by decide) (by decide)⟩

/-- C9: `AssertIsOnTwist(Q)` is satisfiable exactly when `Q` satisfies the
twist equation `Y² = X³ + b'`, except that for the point-at-infinity
sentinel `(0, 0)` the curve constant is zeroed for this check only, so the
sentinel always passes. -/
theorem C9_assertIsOnTwist_iff {R : Type} [CommRing R] [DecidableEq R]
    (bT X Y : R) :
    Pairing.AssertIsOnTwistOk bT X Y = true ↔
      ((X = 0 ∧ Y = 0) ∨ Y ^ 2 = X ^ 3 + bT) := by
  unfold Pairing.AssertIsOnTwistOk Pairing.computeTwistEquation
  by_cases hx : X = 0 <;> by_cases hy : Y = 0 <;>
    simp [hx, hy, pow_two, pow_three']

/-- C10 as stated is false: when `e.C1 ≠ 0` the select writes back the
original value, so the safe call leaves the caller's element unchanged
(here with the concrete ℤ instantiation and `e.C1 = 1`). -/
theorem C10_counterexample_input_unchanged :
    Pairing.finalExpInputAfter Pairing.gtOpsZ
      ⟨Pairing.one6 Pairing.gtOpsZ, Pairing.one6 Pairing.gtOpsZ⟩ false =
    ⟨Pairing.one6 Pairing.gtOpsZ, Pairing.one6 Pairing.gtOpsZ⟩ := by
  decide

/-- C10 (amended): the safe variant stores
`Select(selector1, 1, e.C1.B0.A0)` back into the caller's `e.C1.B0.A0`, so
the caller's element differs from its original value exactly when `e.C1` is
zero (the field then becomes 1); the no-degenerate-input variant performs
no write. -/
theorem C10_safe_variant_write_back {F : Type} [DecidableEq F]
    (ops : Pairing.GTOps F) (e : Pairing.E12 F)
    (hzo : ops.oneF ≠ ops.zeroF) :
    Pairing.finalExpInputAfter ops e true = e ∧
    (Pairing.finalExpInputAfter ops e false ≠ e ↔
      e.C1 = Pairing.zero6 ops) := by
  constructor
  · rfl
  · unfold Pairing.finalExpInputAfter
    by_cases hz : e.C1 = Pairing.zero6 ops
    · have hs : decide (e.C1 = Pairing.zero6 ops) = true := by simpa using hz
      simp only [Bool.false_eq_true, if_false, hs, if_true, hz, iff_true]
      intro heq
      have hA0 := congrArg (fun x => x.C1.B0.A0) heq
      have hz0 : e.C1.B0.A0 = ops.zeroF := by
        rw [hz]; rfl
      simp only [hz0] at hA0
      exact hzo hA0
    · have hs : decide (e.C1 = Pairing.zero6 ops) = false := by simpa using hz
      simp only [Bool.false_eq_true, if_false, hs,
        Pairing.e12_update_A0_self, ne_self_iff_false, false_iff]
      exact hz

theorem C10_safe_variant_write_back_witness :
    (Pairing.gtOpsZ.oneF ≠ Pairing.gtOpsZ.zeroF) ∧
    (Pairing.finalExpInputAfter Pairing.gtOpsZ
        ⟨Pairing.one6 Pairing.gtOpsZ, Pairing.zero6 Pairing.gtOpsZ⟩ true =
      ⟨Pairing.one6 Pairing.gtOpsZ, Pairing.zero6 Pairing.gtOpsZ⟩ ∧
    (Pairing.finalExpInputAfter Pairing.gtOpsZ
        ⟨Pairing.one6 Pairing.gtOpsZ, Pairing.zero6 Pairing.gtOpsZ⟩ false ≠
        ⟨Pairing.one6 Pairing.gtOpsZ, Pairing.zero6 Pairing.gtOpsZ⟩ ↔
      (⟨Pairing.one6 Pairing.gtOpsZ, Pairing.zero6 Pairing.gtOpsZ⟩ :
          Pairing.E12 ℤ).C1 = Pairing.zero6 Pairing.gtOpsZ)) :=
  ⟨by decide,
    C10_safe_variant_write_back Pairing.gtOpsZ
      ⟨Pairing.one6 Pairing.gtOpsZ, Pairing.zero6 Pairing.gtOpsZ⟩ (by decide)⟩
